import Mathlib

/-!
Shallow embedding of the text-processing core of the Smart Document Assistant
(files `src/utils/text_utils.py`, `src/core/ai_assistant.py`,
`src/core/question_generator.py`, and the relevant state update of
`src/app.py`), together with theorems settling the specification claims.

Text is modelled as `List Char`.  Python `re` character classes `\s` and `\w`
are modelled on their ASCII fragment (Unicode whitespace/word characters are
not modelled; no claim depends on them).
-/

namespace SmartDoc

/-- Python regex `\s` / `str.strip()` whitespace (ASCII fragment). -/
def isPySpace (c : Char) : Bool :=
  c = ' ' || c = '\t' || c = '\n' || c = '\r' || c = '\x0b' || c = '\x0c'

/-- Python regex `\w` word character (ASCII fragment: letters, digits, `_`). -/
def isWordChar (c : Char) : Bool :=
  c.isAlphanum || c = '_'

/-- The punctuation preserved by the second regex in `clean_text`:
`[^\w\s\.\,\!\?\;\:\-\(\)]` deletes everything not word, whitespace or these. -/
def isKeptPunct (c : Char) : Bool :=
  c = '.' || c = ',' || c = '!' || c = '?' || c = ';' || c = ':' ||
  c = '-' || c = '(' || c = ')'

/-- A character the second regex of `clean_text` keeps. -/
def isAllowed (c : Char) : Bool :=
  isWordChar c || isPySpace c || isKeptPunct c

/-- Python `str.strip()`: drop leading and trailing whitespace. -/
def pyStrip (l : List Char) : List Char :=
  ((l.dropWhile isPySpace).reverse.dropWhile isPySpace).reverse

/-- `re.sub(r'\s+', ' ', ·)`, processed with a flag recording whether the
previous character was part of a whitespace run: the first character of each
maximal whitespace run becomes `' '`, the rest of the run is dropped. -/
def collapseWsAux : Bool → List Char → List Char
  | _, [] => []
  | true, c :: rest =>
    if isPySpace c then collapseWsAux true rest
    else c :: collapseWsAux false rest
  | false, c :: rest =>
    if isPySpace c then ' ' :: collapseWsAux true rest
    else c :: collapseWsAux false rest

/-- `re.sub(r'\s+', ' ', ·)`: every maximal whitespace run becomes one space. -/
def collapseWs (l : List Char) : List Char :=
  collapseWsAux false l

/-- `clean_text` from `src/utils/text_utils.py`:
`text = re.sub(r'\s+', ' ', text.strip())` followed by
`text = re.sub(r'[^\w\s\.\,\!\?\;\:\-\(\)]', '', text)`. -/
def clean_text (l : List Char) : List Char :=
  (collapseWs (pyStrip l)).filter isAllowed

/-- Spec predicate: no two consecutive whitespace characters. -/
def noConsecWs : List Char → Bool
  | a :: b :: t => !(isPySpace a && isPySpace b) && noConsecWs (b :: t)
  | _ => true

/-- Spec predicate: no leading and no trailing whitespace. -/
def noEdgeWs (l : List Char) : Bool :=
  (match l.head? with | none => true | some c => !isPySpace c) &&
  (match l.getLast? with | none => true | some c => !isPySpace c)

/-- The property claimed of `clean_text`'s output: no consecutive whitespace,
only allowed characters, trimmed. -/
def cleanSpecOK (l : List Char) : Bool :=
  noConsecWs l && l.all isAllowed && noEdgeWs l

/-! ### Word splitting (`str.split()` with no separator) -/

/-- Accumulator-based worker for `str.split()`: whitespace runs separate
words, empty pieces are discarded. -/
def wordsAux : List Char → List Char → List (List Char)
  | [], acc => if acc.isEmpty then [] else [acc.reverse]
  | c :: rest, acc =>
    if isPySpace c then
      if acc.isEmpty then wordsAux rest [] else acc.reverse :: wordsAux rest []
    else wordsAux rest (c :: acc)

/-- Python `text.split()`: the whitespace-tokenized word sequence. -/
def pyWords (l : List Char) : List (List Char) :=
  wordsAux l []

/-- `' '.join(words)`. -/
def joinSp : List (List Char) → List Char
  | [] => []
  | [w] => w
  | w :: rest => w ++ ' ' :: joinSp rest

/-! ### `chunk_text` from `src/utils/text_utils.py`

The Python loop is `for i in range(0, len(words), max_chunk_size - overlap)`
with body: append `words[i:i+max_chunk_size]`, and `break` once
`i + max_chunk_size >= len(words)`.  The loop is modelled with a fuel
parameter (`fuel = words.length` always suffices since the start index grows
by `step ≥ 1` each iteration while `< words.length`); when the step is zero
Python's `range` raises `ValueError`, modelled as the empty result. -/

def chunkGo (ws : List (List Char)) (mx step : Nat) : Nat → Nat → List (List (List Char))
  | 0, _ => []
  | fuel + 1, i =>
    if i < ws.length ∧ 0 < step then
      if ws.length ≤ i + mx then [(ws.drop i).take mx]
      else (ws.drop i).take mx :: chunkGo ws mx step fuel (i + step)
    else []

/-- The chunk word-sequences produced by `chunk_text text mx ov`. -/
def chunkWords (ws : List (List Char)) (mx ov : Nat) : List (List (List Char)) :=
  chunkGo ws mx (mx - ov) ws.length 0

/-- `chunk_text` from `src/utils/text_utils.py`: each chunk is
`' '.join(words[i:i+max_chunk_size])`. -/
def chunk_text (l : List Char) (mx ov : Nat) : List (List Char) :=
  (chunkWords (pyWords l) mx ov).map joinSp

/-- Concatenation of the chunks' word sequences after removing the first
`ov` words of every chunk except the first (the spec's reconstruction). -/
def dropOverlaps (ov : Nat) : List (List (List Char)) → List (List Char)
  | [] => []
  | c :: rest => (c.drop ov) ++ dropOverlaps ov rest

/-- The spec's reconstruction: first chunk whole, later chunks with their
first `ov` words removed, all concatenated. -/
def reassemble (ov : Nat) : List (List (List Char)) → List (List Char)
  | [] => []
  | c :: rest => c ++ dropOverlaps ov rest

/-! ### `extract_key_sentences` from `src/utils/text_utils.py` -/

/-- Sentence-ending characters of the splitting regex `[.!?]+`. -/
def isSentBreak (c : Char) : Bool :=
  c = '.' || c = '!' || c = '?'

/-- `re.split(r'[.!?]+', text)`: split at maximal runs of `.!?`.  The flag
records whether the previous character belonged to such a run. -/
def sentAux : List Char → List Char → Bool → List (List Char)
  | [], acc, _ => [acc.reverse]
  | c :: rest, acc, prevBrk =>
    if isSentBreak c then
      if prevBrk then sentAux rest acc true
      else acc.reverse :: sentAux rest [] true
    else sentAux rest (c :: acc) false

/-- `re.split(r'[.!?]+', text)`. -/
def sentSplit (l : List Char) : List (List Char) :=
  sentAux l [] false

/-- `[s.strip() for s in sentences if len(s.strip()) > 20]`. -/
def sentences (l : List Char) : List (List Char) :=
  ((sentSplit l).map pyStrip).filter (fun s => 20 < s.length)

def toLowerL (l : List Char) : List Char :=
  l.map Char.toLower

/-- `w` is a prefix of `l`. -/
def startsL : List Char → List Char → Bool
  | [], _ => true
  | _ :: _, [] => false
  | a :: as, b :: bs => a = b && startsL as bs

/-- `w in l` for Python strings: `w` occurs as a contiguous substring. -/
def hasSub (w : List Char) : List Char → Bool
  | [] => w.isEmpty
  | c :: rest => startsL w (c :: rest) || hasSub w rest

/-- The fixed importance vocabulary of `extract_key_sentences`. -/
def important_words : List (List Char) :=
  ["conclusion".data, "result".data, "finding".data, "important".data,
   "significant".data, "main".data, "key".data]

/-- `sum(1 for word in important_words if word.lower() in sentence.lower())`. -/
def scoreOf (s : List Char) : Nat :=
  important_words.countP (fun w => hasSub (toLowerL w) (toLowerL s))

/-- The `(score, sentence)` pairs built by `extract_key_sentences`. -/
def scored_sentences (l : List Char) : List (Nat × List Char) :=
  (sentences l).map (fun s => (scoreOf s, s))

/-- `a` sorts no later than `b` under
`sort(key=lambda x: (x[0], len(x[1])), reverse=True)`: descending
lexicographic comparison of `(score, length)`. -/
def sentLe (a b : Nat × List Char) : Bool :=
  decide (b.1 < a.1 ∨ (a.1 = b.1 ∧ b.2.length ≤ a.2.length))

/-- Stable insertion of `a` into `l` (before the first element it `le`s). -/
def insertLe (le : Nat × List Char → Nat × List Char → Bool)
    (a : Nat × List Char) : List (Nat × List Char) → List (Nat × List Char)
  | [] => [a]
  | b :: t => if le a b then a :: b :: t else b :: insertLe le a t

/-- Stable insertion sort; models Python's stable `list.sort` (both produce
the unique stable ordering for a total preorder). -/
def insSort (le : Nat × List Char → Nat × List Char → Bool) :
    List (Nat × List Char) → List (Nat × List Char)
  | [] => []
  | a :: t => insertLe le a (insSort le t)

/-- The scored sentence list after
`scored_sentences.sort(key=lambda x: (x[0], len(x[1])), reverse=True)`. -/
def rankedScored (l : List Char) : List (Nat × List Char) :=
  insSort sentLe (scored_sentences l)

/-- `extract_key_sentences` from `src/utils/text_utils.py`:
`[sent[1] for sent in scored_sentences[:num_sentences]]`. -/
def extract_key_sentences (l : List Char) (n : Nat) : List (List Char) :=
  ((rankedScored l).take n).map (fun p => p.2)

/-! ### `AIAssistant` from `src/core/ai_assistant.py` -/

/-- The number of distinct lowercased question words appearing among the
chunk's lowercased words:
`len(question_words.intersection(set(chunk.lower().split())))`. -/
def overlapScore (q chunk : List Char) : Nat :=
  (((pyWords (toLowerL q)).dedup).filter
    (fun w => (pyWords (toLowerL chunk)).contains w)).length

/-- Loop body of `_find_relevant_chunk`:
`if overlap > best_score: best_score, best_chunk = overlap, chunk`. -/
def frcStep (q : List Char) (bs : List Char × Nat) (ch : List Char) :
    List Char × Nat :=
  if overlapScore q ch > bs.2 then (ch, overlapScore q ch) else bs

/-- `_find_relevant_chunk`: start from `(chunks[0], 0)` and take a chunk
whenever its overlap strictly exceeds the best score so far.  Python raises
`IndexError` on an empty chunk list (`chunks[0]`), modelled as `none`. -/
def find_relevant_chunk (q : List Char) (chunks : List (List Char)) :
    Option (List Char) :=
  match chunks with
  | [] => none
  | c0 :: rest => some (((c0 :: rest).foldl (frcStep q) (c0, 0)).1)

/-- Python `str.splitlines()` line-break characters (`\r\n` is handled as a
single break in `pySplitlines`). -/
def isLineBreakChar (c : Char) : Bool :=
  c = '\n' || c = '\r' || c = '\x0b' || c = '\x0c' ||
  c = '\x1c' || c = '\x1d' || c = '\x1e' || c = '\x85' ||
  c = ' ' || c = ' '

/-- Worker for `str.splitlines()`: no trailing empty line for a trailing
break, `\r\n` counts as one break. -/
def splitlinesAux : List Char → List Char → List (List Char)
  | [], acc => if acc.isEmpty then [] else [acc.reverse]
  | '\r' :: '\n' :: rest, acc => acc.reverse :: splitlinesAux rest []
  | c :: rest, acc =>
    if isLineBreakChar c then acc.reverse :: splitlinesAux rest []
    else splitlinesAux rest (c :: acc)

/-- Python `str.splitlines()`. -/
def pySplitlines (l : List Char) : List (List Char) :=
  splitlinesAux l []

/-- `line.split(sep, 1)[1]`: everything after the first occurrence of `sep`.
(The callers below only reach this when `sep` occurs in the line, which the
`startswith` guards guarantee; Python would raise `IndexError` otherwise,
modelled as `[]`.) -/
def afterFirst (sep : Char) (l : List Char) : List Char :=
  (l.dropWhile (fun c => !(c = sep))).drop 1

/-- Result dictionary of `_parse_answer` / `answer_question`.  Python's float
`confidence` (`0.8` on the parse path, `0` on the error path) is modelled as a
rational. -/
structure AnswerResult where
  answer : List Char
  reference : List Char
  confidence : Rat
deriving DecidableEq

/-- One entry of `conversation_history`. -/
structure Exchange where
  question : List Char
  answer : List Char
  reference : List Char
deriving DecidableEq

/-- Per-line step of `_parse_answer`: `Answer:`/`Reference:` lines overwrite
the corresponding field (lines are *not* stripped before the check). -/
def parseAnswerStep (r : AnswerResult) (line : List Char) : AnswerResult :=
  if startsL "Answer:".data line then
    { r with answer := pyStrip (afterFirst ':' line) }
  else if startsL "Reference:".data line then
    { r with reference := pyStrip (afterFirst ':' line) }
  else r

/-- `_parse_answer` from `src/core/ai_assistant.py`. -/
def parse_answer (t : List Char) : AnswerResult :=
  let r := (pySplitlines t).foldl parseAnswerStep
    { answer := [], reference := [], confidence := 4/5 }
  if r.answer.isEmpty then
    { r with answer := pyStrip t, reference := "General document content".data }
  else r

/-- `answer_question` from `src/core/ai_assistant.py`, with the generative
model call abstracted as an `Except` oracle (its failure is the `except`
branch).  The pure steps before the call (`chunk_text`, chunk selection) are
in the model; `chunks[0]` on an empty chunk list raises `IndexError`, which
the same `except` branch catches with message `list index out of range`.
Returns the result dictionary and the new `conversation_history` (the
exchange is appended only after a successful parse). -/
def answer_question (hist : List Exchange) (question docText : List Char)
    (collab : Except (List Char) (List Char)) :
    AnswerResult × List Exchange :=
  let chunks := chunk_text docText 1500 150
  match find_relevant_chunk question chunks with
  | none =>
    ({ answer := "Error processing question: list index out of range".data,
       reference := "System error".data, confidence := 0 }, hist)
  | some _ =>
    match collab with
    | .error e =>
      ({ answer := "Error processing question: ".data ++ e,
         reference := "System error".data, confidence := 0 }, hist)
    | .ok txt =>
      let parsed := parse_answer txt
      (parsed, hist ++ [⟨question, parsed.answer, parsed.reference⟩])

/-! ### `QuestionGenerator` from `src/core/question_generator.py` -/

/-- One generated question dictionary. -/
structure Question where
  question : List Char
  expected_answer : List Char
  type : List Char
deriving DecidableEq

/-- `self.question_types`. -/
def question_types : List (List Char) :=
  ["comprehension".data, "inference".data, "analysis".data, "evaluation".data]

/-- `_generate_fallback_questions` (its `document_text` argument is unused in
the source as well). -/
def generate_fallback_questions (documentText : List Char) : List Question :=
  [⟨"What are the main topics discussed in this document?".data,
    "Based on the document content, identify key themes and subjects.".data,
    "comprehension".data⟩,
   ⟨"What conclusions can be drawn from the information presented?".data,
    "Analyze the evidence and reasoning to identify logical conclusions.".data,
    "inference".data⟩,
   ⟨"How do the different sections of this document relate to each other?".data,
    "Examine the structure and connections between different parts.".data,
    "analysis".data⟩]

/-- Python truthiness of an optional string (`None` and `""` are falsy). -/
def truthy : Option (List Char) → Bool
  | none => false
  | some l => !l.isEmpty

/-- Per-line step of `_parse_questions`.  State: current question, current
answer, questions so far.  `pick k` models the `random.choice` made for the
`k`-th appended question.  Note the truthiness tests: an empty `current_q`
blocks both the flush and the `A` branch, exactly as in Python. -/
def parseQuestionsStep (pick : Nat → List Char)
    (st : Option (List Char) × Option (List Char) × List Question)
    (line0 : List Char) :
    Option (List Char) × Option (List Char) × List Question :=
  let line := pyStrip line0
  let cq := st.1
  let ca := st.2.1
  let qs := st.2.2
  if startsL ['Q'] line && line.contains ':' then
    let qs' :=
      if truthy cq && truthy ca then
        qs ++ [⟨(cq.getD []), (ca.getD []), pick qs.length⟩]
      else qs
    (some (pyStrip (afterFirst ':' line)), none, qs')
  else if startsL ['A'] line && line.contains ':' && truthy cq then
    (cq, some (pyStrip (afterFirst ':' line)), qs)
  else (cq, ca, qs)

/-- `line.split('\n')` (single separator, empties kept, `""` gives `[""]`). -/
def splitNlAux : List Char → List Char → List (List Char)
  | [], acc => [acc.reverse]
  | c :: rest, acc =>
    if c = '\n' then acc.reverse :: splitNlAux rest []
    else splitNlAux rest (c :: acc)

/-- `questions_text.strip().split('\n')`. -/
def splitNl (l : List Char) : List (List Char) :=
  splitNlAux l []

/-- `_parse_questions` from `src/core/question_generator.py`. -/
def parse_questions (pick : Nat → List Char) (t : List Char) : List Question :=
  let st := (splitNl (pyStrip t)).foldl (parseQuestionsStep pick) (none, none, [])
  let qs :=
    if truthy st.1 && truthy st.2.1 then
      st.2.2 ++ [⟨(st.1.getD []), (st.2.1.getD []), pick st.2.2.length⟩]
    else st.2.2
  qs.take 3

/-- `generate_challenge_questions` from `src/core/question_generator.py`,
with the generative model call abstracted as an `Except` oracle: any failure
is caught and replaced by the fallback questions; on success the response
text is parsed. -/
def generate_challenge_questions (pick : Nat → List Char)
    (documentText : List Char) (collab : Except (List Char) (List Char)) :
    List Question :=
  match collab with
  | .error _ => generate_fallback_questions documentText
  | .ok t => parse_questions pick t

/-! ### `_parse_evaluation` from `src/core/question_generator.py` -/

/-- `line.split(sep)` for a single-character separator (no maxsplit):
empties kept, `""` gives `[""]`. -/
def splitChAux (sep : Char) : List Char → List Char → List (List Char)
  | [], acc => [acc.reverse]
  | c :: rest, acc =>
    if c = sep then acc.reverse :: splitChAux sep rest []
    else splitChAux sep rest (c :: acc)

/-- `line.split(sep)` for a single-character separator. -/
def splitCh (sep : Char) (l : List Char) : List (List Char) :=
  splitChAux sep l []

/-- Digit-run parser for Python `int(...)`: after the first digit,
single underscores are allowed between digits. -/
def digitsUS : List Char → Nat → Option Nat
  | [], acc => some acc
  | '_' :: c :: rest, acc =>
    if c.isDigit then digitsUS rest (acc * 10 + (c.toNat - '0'.toNat)) else none
  | ['_'], _ => none
  | c :: rest, acc =>
    if c.isDigit then digitsUS rest (acc * 10 + (c.toNat - '0'.toNat)) else none

/-- Python `int(str)` on the decimal-literal fragment: surrounding whitespace
ignored, optional sign, digits with single interior underscores; everything
else raises `ValueError` (modelled as `none`). -/
def pyToInt (l : List Char) : Option Int :=
  let parseDigs : List Char → Option Nat := fun r =>
    match r with
    | [] => none
    | c :: rest =>
      if c.isDigit then digitsUS rest (c.toNat - '0'.toNat) else none
  match pyStrip l with
  | '+' :: r => (parseDigs r).map (fun n => (n : Int))
  | '-' :: r => (parseDigs r).map (fun n => -(n : Int))
  | r => (parseDigs r).map (fun n => (n : Int))

/-- Result dictionary of `_parse_evaluation` / `evaluate_answer`. -/
structure EvalResult where
  score : Int
  feedback : List Char
  justification : List Char
deriving DecidableEq

/-- Per-line step of `_parse_evaluation`: a `Score:` line parses
`line.split(':')[1].strip().split('/')[0]` as an int and stores
`max(1, min(5, score))`; a failed parse leaves the previous score. -/
def parseEvalStep (r : EvalResult) (line0 : List Char) : EvalResult :=
  let line := pyStrip line0
  if startsL "Score:".data line then
    match (splitCh ':' line).get? 1 with
    | none => r
    | some seg =>
      match (splitCh '/' (pyStrip seg)).head? with
      | none => r
      | some first =>
        match pyToInt first with
        | none => r
        | some n => { r with score := max 1 (min 5 n) }
  else if startsL "Feedback:".data line then
    { r with feedback := pyStrip (afterFirst ':' line) }
  else if startsL "Justification:".data line then
    { r with justification := pyStrip (afterFirst ':' line) }
  else r

/-- `_parse_evaluation` from `src/core/question_generator.py`: fold the line
step over `evaluation_text.split('\n')` starting from the default
`{"score": 3, "feedback": "", "justification": ""}`. -/
def parse_evaluation (t : List Char) : EvalResult :=
  (splitCh '\n' t).foldl parseEvalStep
    { score := 3, feedback := [], justification := [] }

/-! ### Caller state update from `src/app.py` -/

/-- From `show_challenge_interface` in `src/app.py`: on generation the
session state receives the generator's result verbatim
(`st.session_state.challenge_questions = questions`); the result is not
inspected and nothing is substituted. -/
def show_challenge_interface_store (questions : List Question) : List Question :=
  questions

/-! ### Spec-side scoring definitions (for comparison with `scoreOf`) -/

/-- Modelled from the spec's words for C8: the number of (possibly
overlapping) positions at which `w` occurs as a substring. -/
def countOcc (w : List Char) : List Char → Nat
  | [] => if w.isEmpty then 1 else 0
  | c :: rest => (if startsL w (c :: rest) then 1 else 0) + countOcc w rest

/-- The claim's sentence score: total number of case-insensitive occurrences
of vocabulary terms (counting multiplicity). -/
def specScoreOcc (s : List Char) : Nat :=
  (important_words.map (fun w => countOcc (toLowerL w) (toLowerL s))).sum

/-- The amended sentence score: each vocabulary term contributes at most 1,
however many times it occurs. -/
def specScoreCapped (s : List Char) : Nat :=
  (important_words.map (fun w => min 1 (countOcc (toLowerL w) (toLowerL s)))).sum

/-! ## Helper lemmas: `collapseWs` and `pyStrip` -/

theorem collapseWsAux_true_cons (a : Char) (rest : List Char) :
    collapseWsAux true (a :: rest) =
      if isPySpace a then collapseWsAux true rest
      else a :: collapseWsAux false rest := rfl

theorem collapseWsAux_false_cons (a : Char) (rest : List Char) :
    collapseWsAux false (a :: rest) =
      if isPySpace a then ' ' :: collapseWsAux true rest
      else a :: collapseWsAux false rest := rfl

theorem mem_collapseWsAux {c : Char} :
    ∀ (l : List Char) (b : Bool), c ∈ collapseWsAux b l → c = ' ' ∨ c ∈ l := by
  intro l
  induction l with
  | nil => intro b h; cases b <;> simp [collapseWsAux] at h
  | cons a rest ih =>
    intro b h
    cases b <;> by_cases ha : isPySpace a <;>
      simp only [collapseWsAux, ha, if_pos, if_neg, Bool.not_eq_true,
        ite_true, ite_false] at h
    · rcases List.mem_cons.mp h with h' | h'
      · exact Or.inl h'
      · rcases ih true h' with h'' | h''
        · exact Or.inl h''
        · exact Or.inr (List.mem_cons_of_mem _ h'')
    · rcases List.mem_cons.mp h with h' | h'
      · exact Or.inr (h' ▸ List.mem_cons_self _ _)
      · rcases ih false h' with h'' | h''
        · exact Or.inl h''
        · exact Or.inr (List.mem_cons_of_mem _ h'')
    · rcases ih true h with h' | h'
      · exact Or.inl h'
      · exact Or.inr (List.mem_cons_of_mem _ h')
    · rcases List.mem_cons.mp h with h' | h'
      · exact Or.inr (h' ▸ List.mem_cons_self _ _)
      · rcases ih false h' with h'' | h''
        · exact Or.inl h''
        · exact Or.inr (List.mem_cons_of_mem _ h'')

theorem collapseWsAux_true_head :
    ∀ (l : List Char) (x : Char),
      (collapseWsAux true l).head? = some x → isPySpace x = false := by
  intro l
  induction l with
  | nil => intro x h; simp [collapseWsAux] at h
  | cons a rest ih =>
    intro x h
    by_cases ha : isPySpace a
    · rw [collapseWsAux_true_cons, if_pos ha] at h
      exact ih x h
    · rw [collapseWsAux_true_cons, if_neg ha] at h
      simp only [List.head?_cons, Option.some.injEq] at h
      exact h ▸ (by simpa using ha)

theorem noConsecWs_cons_of {a : Char} {X : List Char}
    (hX : noConsecWs X = true)
    (h : isPySpace a = false ∨ ∀ x, X.head? = some x → isPySpace x = false) :
    noConsecWs (a :: X) = true := by
  cases X with
  | nil => rfl
  | cons x t =>
    have hx : isPySpace a = false ∨ isPySpace x = false := by
      rcases h with h | h
      · exact Or.inl h
      · exact Or.inr (h x rfl)
    simp only [noConsecWs, Bool.and_eq_true, Bool.not_eq_true']
    refine ⟨?_, hX⟩
    rcases hx with hx | hx <;> simp [hx]

theorem noConsecWs_collapseWsAux :
    ∀ (l : List Char) (b : Bool), noConsecWs (collapseWsAux b l) = true := by
  intro l
  induction l with
  | nil => intro b; cases b <;> rfl
  | cons a rest ih =>
    intro b
    cases b <;> by_cases ha : isPySpace a <;>
      simp only [collapseWsAux, ha, ite_true, ite_false]
    · exact noConsecWs_cons_of (ih true)
        (Or.inr (collapseWsAux_true_head rest))
    · exact noConsecWs_cons_of (ih false) (Or.inl (by simpa using ha))
    · exact ih true
    · exact noConsecWs_cons_of (ih false) (Or.inl (by simpa using ha))

theorem collapseWsAux_false_ne_nil (a : Char) (rest : List Char) :
    collapseWsAux false (a :: rest) ≠ [] := by
  by_cases ha : isPySpace a <;> simp [collapseWsAux, ha]

theorem collapseWsAux_ne_nil_of_mem :
    ∀ (l : List Char), (∃ c ∈ l, isPySpace c = false) →
      ∀ b, collapseWsAux b l ≠ [] := by
  intro l
  induction l with
  | nil => rintro ⟨c, hc, _⟩ b; simp at hc
  | cons a rest ih =>
    rintro ⟨c, hc, hcs⟩ b
    by_cases ha : isPySpace a
    · have hcr : c ∈ rest := by
        rcases List.mem_cons.mp hc with rfl | h
        · exact absurd ha (by simp [hcs])
        · exact h
      cases b
      · rw [collapseWsAux_false_cons, if_pos ha]
        simp
      · rw [collapseWsAux_true_cons, if_pos ha]
        exact ih ⟨c, hcr, hcs⟩ true
    · cases b
      · rw [collapseWsAux_false_cons, if_neg ha]
        simp
      · rw [collapseWsAux_true_cons, if_neg ha]
        simp

theorem getLast?_cons_of_ne_nil {α : Type} (a : α) {X : List α} (h : X ≠ []) :
    (a :: X).getLast? = X.getLast? := by
  cases X with
  | nil => exact absurd rfl h
  | cons x t => exact List.getLast?_cons_cons

theorem collapseWsAux_getLast :
    ∀ (l : List Char) (b : Bool) (x : Char),
      (∀ c, l.getLast? = some c → isPySpace c = false) →
      (collapseWsAux b l).getLast? = some x → isPySpace x = false := by
  intro l
  induction l with
  | nil => intro b x _ h; cases b <;> simp [collapseWsAux] at h
  | cons a rest ih =>
    intro b x hl h
    cases rest with
    | nil =>
      have ha : isPySpace a = false := hl a rfl
      have ha' : ¬ isPySpace a = true := by simp [ha]
      cases b
      · rw [collapseWsAux_false_cons, if_neg ha'] at h
        simp only [collapseWsAux, List.getLast?_singleton, Option.some.injEq] at h
        exact h ▸ ha
      · rw [collapseWsAux_true_cons, if_neg ha'] at h
        simp only [collapseWsAux, List.getLast?_singleton, Option.some.injEq] at h
        exact h ▸ ha
    | cons r rs =>
      have hrest : ∀ c, (r :: rs).getLast? = some c → isPySpace c = false := by
        intro c hc
        exact hl c (List.getLast?_cons_cons.trans hc)
      have hex : ∃ c ∈ r :: rs, isPySpace c = false := by
        obtain ⟨c, hc⟩ := Option.isSome_iff_exists.mp
          (List.getLast?_isSome.mpr (by simp : (r :: rs) ≠ []))
        exact ⟨c, List.mem_of_getLast?_eq_some hc, hrest c hc⟩
      by_cases ha : isPySpace a
      · cases b
        · rw [collapseWsAux_false_cons, if_pos ha,
            getLast?_cons_of_ne_nil ' '
              (collapseWsAux_ne_nil_of_mem (r :: rs) hex true)] at h
          exact ih true x hrest h
        · rw [collapseWsAux_true_cons, if_pos ha] at h
          exact ih true x hrest h
      · cases b
        · rw [collapseWsAux_false_cons, if_neg ha,
            getLast?_cons_of_ne_nil a (collapseWsAux_false_ne_nil r rs)] at h
          exact ih false x hrest h
        · rw [collapseWsAux_true_cons, if_neg ha,
            getLast?_cons_of_ne_nil a (collapseWsAux_false_ne_nil r rs)] at h
          exact ih false x hrest h

theorem dropWhile_eq_self_of_head {p : Char → Bool} {l : List Char}
    (h : ∀ c, l.head? = some c → p c = false) : l.dropWhile p = l := by
  cases l with
  | nil => rfl
  | cons a t =>
    have := h a rfl
    simp [List.dropWhile_cons, this]

theorem head?_pyStrip (l : List Char) :
    ∀ x, (pyStrip l).head? = some x → isPySpace x = false := by
  intro x h
  unfold pyStrip at h
  rw [List.head?_reverse] at h
  set A := l.dropWhile isPySpace with hA
  set B := A.reverse.dropWhile isPySpace with hB
  have hBne : B ≠ [] := by
    intro hnil
    rw [hnil] at h
    simp at h
  have hsplit : A.reverse.takeWhile isPySpace ++ B = A.reverse := by
    rw [hB]; exact List.takeWhile_append_dropWhile isPySpace A.reverse
  have h2 : B.getLast? = A.reverse.getLast? := by
    rw [← hsplit]
    exact (List.getLast?_append_of_ne_nil _ hBne).symm
  rw [h2, List.getLast?_reverse] at h
  have := List.head?_dropWhile_not isPySpace l
  rw [← hA] at this
  rw [h] at this
  exact this

theorem getLast?_pyStrip (l : List Char) :
    ∀ x, (pyStrip l).getLast? = some x → isPySpace x = false := by
  intro x h
  unfold pyStrip at h
  rw [List.getLast?_reverse] at h
  have := List.head?_dropWhile_not isPySpace (l.dropWhile isPySpace).reverse
  rw [h] at this
  exact this

theorem mem_pyStrip {x : Char} {l : List Char} (h : x ∈ pyStrip l) : x ∈ l := by
  unfold pyStrip at h
  rw [List.mem_reverse] at h
  have h1 := (List.dropWhile_sublist isPySpace).mem h
  rw [List.mem_reverse] at h1
  exact (List.dropWhile_sublist isPySpace).mem h1

theorem pyStrip_idem (l : List Char) : pyStrip (pyStrip l) = pyStrip l := by
  have h1 : (pyStrip l).dropWhile isPySpace = pyStrip l :=
    dropWhile_eq_self_of_head (head?_pyStrip l)
  have h2 : (pyStrip l).reverse.dropWhile isPySpace = (pyStrip l).reverse := by
    apply dropWhile_eq_self_of_head
    intro c hc
    rw [List.head?_reverse] at hc
    exact getLast?_pyStrip l c hc
  show ((((pyStrip l).dropWhile isPySpace).reverse.dropWhile isPySpace)).reverse
      = pyStrip l
  rw [h1, h2, List.reverse_reverse]

/-! ## Claim C1 -/

/-- C1 counterexample: for the non-empty input `"a @ b"`, `clean_text` first
collapses whitespace and only then deletes `'@'`, leaving the two spaces that
surrounded it adjacent: the result is `"a  b"`, which has two consecutive
whitespace characters, so the claimed property `cleanSpecOK` fails. -/
theorem clean_text_consecutive_ws_counterexample :
    "a @ b".data ≠ [] ∧
    clean_text "a @ b".data = "a  b".data ∧
    noConsecWs (clean_text "a @ b".data) = false ∧
    cleanSpecOK (clean_text "a @ b".data) = false := by
  refine ⟨by decide, by decide, by decide, by decide⟩

/-- C1 (amended): for every non-empty input, `clean_text` always yields only
characters of the allowed set; and whenever the input itself consists only of
allowed characters (so the character-deleting regex removes nothing), the
result additionally has no two consecutive whitespace characters and no
leading or trailing whitespace. -/
theorem clean_text_allowed_and_conditional (l : List Char) (hne : l ≠ []) :
    (clean_text l).all isAllowed = true ∧
    (l.all isAllowed = true →
      noConsecWs (clean_text l) = true ∧ noEdgeWs (clean_text l) = true) := by
  constructor
  · rw [List.all_eq_true]
    intro x hx
    exact (List.mem_filter.mp hx).2
  · intro hall
    have hmem : ∀ x ∈ collapseWs (pyStrip l), isAllowed x = true := by
      intro x hx
      rcases mem_collapseWsAux (pyStrip l) false hx with rfl | hx'
      · decide
      · exact (List.all_eq_true.mp hall) x (mem_pyStrip hx')
    have hid : clean_text l = collapseWs (pyStrip l) := by
      unfold clean_text
      exact List.filter_eq_self.mpr hmem
    rw [hid]
    refine ⟨noConsecWs_collapseWsAux (pyStrip l) false, ?_⟩
    unfold noEdgeWs
    have hhead : ∀ x, (collapseWs (pyStrip l)).head? = some x →
        isPySpace x = false := by
      intro x hx
      cases hs : pyStrip l with
      | nil => rw [hs] at hx; simp [collapseWs, collapseWsAux] at hx
      | cons a rest =>
        have ha : isPySpace a = false := head?_pyStrip l a (by rw [hs]; rfl)
        have ha' : ¬ isPySpace a = true := by simp [ha]
        rw [hs] at hx
        rw [show collapseWs (a :: rest) = collapseWsAux false (a :: rest) from rfl,
          collapseWsAux_false_cons, if_neg ha'] at hx
        simp only [List.head?_cons, Option.some.injEq] at hx
        exact hx ▸ ha
    have hlast : ∀ x, (collapseWs (pyStrip l)).getLast? = some x →
        isPySpace x = false :=
      fun x hx => collapseWsAux_getLast (pyStrip l) false x (getLast?_pyStrip l) hx
    rw [Bool.and_eq_true]
    constructor
    · cases hh : (collapseWs (pyStrip l)).head? with
      | none => rfl
      | some c => simp [hhead c hh]
    · cases hh : (collapseWs (pyStrip l)).getLast? with
      | none => rfl
      | some c => simp [hlast c hh]

/-- Witness for C1 (amended) at the concrete input `"ab, c"`. -/
theorem clean_text_allowed_and_conditional_witness :
    (clean_text "ab, c".data).all isAllowed = true ∧
    (noConsecWs (clean_text "ab, c".data) = true ∧
      noEdgeWs (clean_text "ab, c".data) = true) :=
  ⟨(clean_text_allowed_and_conditional "ab, c".data (by decide)).1,
   (clean_text_allowed_and_conditional "ab, c".data (by decide)).2 (by decide)⟩

/-! ## Claim C2: chunking lemmas -/

theorem chunkGo_ne_nil (ws : List (List Char)) (mx step : Nat) :
    ∀ (fuel i : Nat), i < ws.length → 0 < step → ws.length - i ≤ fuel →
      chunkGo ws mx step fuel i ≠ [] := by
  intro fuel
  cases fuel with
  | zero => intro i hi _ hf; omega
  | succ f =>
    intro i hi hs _
    simp only [chunkGo, if_pos (And.intro hi hs)]
    by_cases hend : ws.length ≤ i + mx <;> simp [hend]

/-- Removing the first `ov` words of every chunk starting at index `i`
yields exactly the word suffix from `i + ov` on. -/
theorem dropOverlaps_chunkGo (ws : List (List Char)) (mx ov : Nat)
    (hov : ov < mx) :
    ∀ (fuel i : Nat), ws.length - i ≤ fuel →
      dropOverlaps ov (chunkGo ws mx (mx - ov) fuel i) = ws.drop (i + ov) := by
  intro fuel
  induction fuel with
  | zero =>
    intro i hf
    have : ws.length ≤ i + ov := by omega
    simp only [chunkGo, dropOverlaps]
    exact (List.drop_eq_nil_of_le this).symm
  | succ f ih =>
    intro i hf
    by_cases hguard : i < ws.length ∧ 0 < mx - ov
    · rw [show chunkGo ws mx (mx - ov) (f + 1) i =
          if ws.length ≤ i + mx then [(ws.drop i).take mx]
          else (ws.drop i).take mx :: chunkGo ws mx (mx - ov) f (i + (mx - ov))
        from by simp [chunkGo, hguard]]
      by_cases hend : ws.length ≤ i + mx
      · rw [if_pos hend]
        simp only [dropOverlaps, List.append_nil]
        rw [List.drop_take, List.drop_drop]
        have hlen : (ws.drop (i + ov)).length ≤ mx - ov := by
          rw [List.length_drop]; omega
        exact List.take_of_length_le hlen
      · rw [if_neg hend]
        simp only [dropOverlaps]
        have ihs := ih (i + (mx - ov)) (by omega)
        rw [ihs]
        rw [List.drop_take, List.drop_drop]
        rw [show i + (mx - ov) + ov = (i + ov) + (mx - ov) from by omega]
        rw [show ws.drop ((i + ov) + (mx - ov)) =
            (ws.drop (i + ov)).drop (mx - ov) from by rw [List.drop_drop]]
        exact List.take_append_drop (mx - ov) (ws.drop (i + ov))
    · have hi : ws.length ≤ i := by
        rcases Nat.lt_or_ge i ws.length with h | h
        · exact absurd ⟨h, by omega⟩ hguard
        · exact h
      simp only [chunkGo, if_neg hguard, dropOverlaps]
      exact (List.drop_eq_nil_of_le (by omega)).symm

/-- The last chunk begins at an index `j` from which the window reaches the
end of the word sequence. -/
theorem chunkGo_getLast (ws : List (List Char)) (mx step : Nat)
    (hs : 0 < step) (hstep : step ≤ mx) :
    ∀ (fuel i : Nat), i < ws.length → ws.length - i ≤ fuel →
      ∃ j, i ≤ j ∧ j < ws.length ∧ ws.length ≤ j + mx ∧
        (chunkGo ws mx step fuel i).getLast? = some ((ws.drop j).take mx) := by
  intro fuel
  induction fuel with
  | zero => intro i hi hf; omega
  | succ f ih =>
    intro i hi hf
    rw [show chunkGo ws mx step (f + 1) i =
        if ws.length ≤ i + mx then [(ws.drop i).take mx]
        else (ws.drop i).take mx :: chunkGo ws mx step f (i + step)
      from by simp [chunkGo, hi, hs]]
    by_cases hend : ws.length ≤ i + mx
    · exact ⟨i, Nat.le_refl i, hi, hend, by rw [if_pos hend]; rfl⟩
    · rw [if_neg hend]
      have hnext : i + step < ws.length := by omega
      obtain ⟨j, hj1, hj2, hj3, hj4⟩ := ih (i + step) hnext (by omega)
      refine ⟨j, by omega, hj2, hj3, ?_⟩
      rw [getLast?_cons_of_ne_nil _
        (chunkGo_ne_nil ws mx step f (i + step) hnext hs (by omega))]
      exact hj4

/-- C2: for `overlap < maxSize`, concatenating the chunk word-sequences of
`chunk_text` with the first `overlap` words of every chunk but the first
removed reconstructs the whitespace-tokenized word sequence exactly; and when
the word sequence is non-empty, its last word appears in the last chunk.
(A non-empty text consisting only of whitespace has no words; the last-word
clause is read over the word sequence, as in the spec.) -/
theorem chunk_text_reconstruction (text : List Char) (mx ov : Nat)
    (hov : ov < mx) :
    reassemble ov (chunkWords (pyWords text) mx ov) = pyWords text ∧
    (pyWords text ≠ [] →
      ∃ c, (chunkWords (pyWords text) mx ov).getLast? = some c ∧
        ∃ w, (pyWords text).getLast? = some w ∧ w ∈ c) := by
  set ws := pyWords text with hws
  constructor
  · unfold chunkWords
    cases hl : ws with
    | nil => simp [chunkGo, reassemble]
    | cons w0 wrest =>
      rw [← hl]
      have hlen : 0 < ws.length := by rw [hl]; simp
      obtain ⟨f, hf⟩ : ∃ f, ws.length = f + 1 :=
        ⟨ws.length - 1, by omega⟩
      rw [hf]
      rw [show chunkGo ws mx (mx - ov) (f + 1) 0 =
          if ws.length ≤ 0 + mx then [(ws.drop 0).take mx]
          else (ws.drop 0).take mx :: chunkGo ws mx (mx - ov) f (0 + (mx - ov))
        from by simp [chunkGo, hlen, Nat.sub_pos_of_lt hov]]
      by_cases hend : ws.length ≤ 0 + mx
      · rw [if_pos hend]
        simp only [reassemble, dropOverlaps, List.append_nil, List.drop_zero]
        exact List.take_of_length_le (by omega)
      · rw [if_neg hend]
        simp only [reassemble]
        rw [dropOverlaps_chunkGo ws mx ov hov f (0 + (mx - ov)) (by omega)]
        rw [List.drop_zero]
        rw [show 0 + (mx - ov) + ov = mx from by omega]
        exact List.take_append_drop mx ws
  · intro hne
    have hlen : 0 < ws.length := List.length_pos.mpr hne
    obtain ⟨j, _, hj2, hj3, hj4⟩ :=
      chunkGo_getLast ws mx (mx - ov) (by omega) (Nat.sub_le mx ov)
        ws.length 0 hlen (by omega)
    have hc : (ws.drop j).take mx = ws.drop j := by
      apply List.take_of_length_le
      rw [List.length_drop]; omega
    refine ⟨ws.drop j, by rw [← hc]; exact hj4, ?_⟩
    obtain ⟨w, hw⟩ := Option.isSome_iff_exists.mp (List.getLast?_isSome.mpr hne)
    refine ⟨w, hw, ?_⟩
    have hdne : ws.drop j ≠ [] := by
      intro hx
      have := congrArg List.length hx
      rw [List.length_drop] at this
      simp at this
      omega
    have : ws.getLast? = (ws.drop j).getLast? := by
      conv_lhs => rw [← List.take_append_drop j ws]
      exact List.getLast?_append_of_ne_nil _ hdne
    rw [this] at hw
    exact List.mem_of_getLast?_eq_some hw

/-- Witness for C2 at `"one two three four five"`, `maxSize = 2`,
`overlap = 1`. -/
theorem chunk_text_reconstruction_witness :
    reassemble 1 (chunkWords (pyWords "one two three four five".data) 2 1) =
      pyWords "one two three four five".data ∧
    (∃ c, (chunkWords (pyWords "one two three four five".data) 2 1).getLast? =
        some c ∧
      ∃ w, (pyWords "one two three four five".data).getLast? = some w ∧
        w ∈ c) :=
  ⟨(chunk_text_reconstruction "one two three four five".data 2 1 (by decide)).1,
   (chunk_text_reconstruction "one two three four five".data 2 1 (by decide)).2
     (by decide)⟩

/-! ## Claim C3 -/

theorem parseEvalStep_score_range (r : EvalResult) (line : List Char)
    (h : 1 ≤ r.score ∧ r.score ≤ 5) :
    1 ≤ (parseEvalStep r line).score ∧ (parseEvalStep r line).score ≤ 5 := by
  unfold parseEvalStep
  dsimp only
  split
  · split
    · exact h
    · split
      · exact h
      · split
        · exact h
        · refine ⟨le_max_left 1 _, max_le (by norm_num) (min_le_left 5 _)⟩
  · split
    · exact h
    · split
      · exact h
      · exact h

theorem foldl_parseEvalStep_score_range (lines : List (List Char)) :
    ∀ r : EvalResult, 1 ≤ r.score ∧ r.score ≤ 5 →
      1 ≤ (lines.foldl parseEvalStep r).score ∧
        (lines.foldl parseEvalStep r).score ≤ 5 := by
  induction lines with
  | nil => intro r h; exact h
  | cons line rest ih =>
    intro r h
    exact ih (parseEvalStep r line) (parseEvalStep_score_range r line h)

/-- C3: the score of `_parse_evaluation` is always an integer in `[1, 5]`;
`"Score: 4/5"` yields `4`, `"Score: 9"` yields the clamped `5`, and
`"Score: abc"` leaves the default `3`. -/
theorem parse_evaluation_score_range_and_examples :
    (∀ t : List Char,
      1 ≤ (parse_evaluation t).score ∧ (parse_evaluation t).score ≤ 5) ∧
    (parse_evaluation "Score: 4/5".data).score = 4 ∧
    (parse_evaluation "Score: 9".data).score = 5 ∧
    (parse_evaluation "Score: abc".data).score = 3 := by
  refine ⟨?_, by decide, by decide, by decide⟩
  intro t
  exact foldl_parseEvalStep_score_range (splitCh '\n' t) _ (by norm_num)

/-! ## Claim C4 -/

/-- C4: when the collaborator call inside `generate_challenge_questions`
fails, the operation returns (without propagating the error) exactly the 3
fixed fallback questions, each with a non-empty question, a non-empty
expected answer, and a type drawn from the 4 fixed categories. -/
theorem generate_challenge_questions_fallback_on_error
    (pick : Nat → List Char) (doc e : List Char) :
    generate_challenge_questions pick doc (.error e) =
      generate_fallback_questions doc ∧
    (generate_fallback_questions doc).length = 3 ∧
    (generate_fallback_questions doc).all
      (fun q => !q.question.isEmpty && !q.expected_answer.isEmpty &&
        question_types.contains q.type) = true := by
  exact ⟨rfl, rfl, rfl⟩

/-! ## Claim C5 -/

theorem frc_foldl_spec (q : List Char) :
    ∀ (l : List (List Char)) (b : List Char) (s : Nat),
      (l.foldl (frcStep q) (b, s) = (b, s) ∧
        ∀ x ∈ l, overlapScore q x ≤ s) ∨
      (∃ (i : Nat) (hi : i < l.length),
        (l.foldl (frcStep q) (b, s)).1 = l[i] ∧
        (l.foldl (frcStep q) (b, s)).2 = overlapScore q l[i] ∧
        s < overlapScore q l[i] ∧
        (∀ (j : Nat) (hj : j < l.length),
          overlapScore q l[j] ≤ overlapScore q l[i]) ∧
        (∀ (j : Nat) (hj : j < l.length), j < i →
          overlapScore q l[j] < overlapScore q l[i])) := by
  intro l
  induction l with
  | nil => intro b s; exact Or.inl ⟨rfl, by simp⟩
  | cons x t ih =>
    intro b s
    rw [List.foldl_cons]
    by_cases hx : overlapScore q x > s
    · rw [show frcStep q (b, s) x = (x, overlapScore q x) from by
        simp [frcStep, hx]]
      rcases ih x (overlapScore q x) with ⟨heq, hall⟩ | ⟨i, hi, h1, h2, h3, h4, h5⟩
      · refine Or.inr ⟨0, by simp, ?_, ?_, ?_, ?_, ?_⟩
        · rw [heq]; simp
        · rw [heq]; simp
        · simpa using hx
        · intro j hj
          cases j with
          | zero => simp
          | succ j' =>
            have hj' : j' < t.length := by simpa using hj
            simp only [List.getElem_cons_succ, List.getElem_cons_zero]
            exact hall _ (List.getElem_mem hj')
        · intro j hj hj0; omega
      · refine Or.inr ⟨i + 1, by simpa using hi, ?_, ?_, ?_, ?_, ?_⟩
        · simpa using h1
        · simpa using h2
        · simp only [List.getElem_cons_succ]
          exact lt_trans hx h3
        · intro j hj
          cases j with
          | zero =>
            simp only [List.getElem_cons_zero, List.getElem_cons_succ]
            exact le_of_lt h3
          | succ j' =>
            simp only [List.getElem_cons_succ]
            exact h4 j' (by simpa using hj)
        · intro j hj hji
          cases j with
          | zero =>
            simp only [List.getElem_cons_zero, List.getElem_cons_succ]
            exact h3
          | succ j' =>
            simp only [List.getElem_cons_succ]
            exact h5 j' (by simpa using hj) (by omega)
    · rw [show frcStep q (b, s) x = (b, s) from by simp [frcStep, hx]]
      have hxle : overlapScore q x ≤ s := Nat.not_lt.mp hx
      rcases ih b s with ⟨heq, hall⟩ | ⟨i, hi, h1, h2, h3, h4, h5⟩
      · refine Or.inl ⟨heq, ?_⟩
        intro y hy
        rcases List.mem_cons.mp hy with rfl | hy'
        · exact hxle
        · exact hall y hy'
      · refine Or.inr ⟨i + 1, by simpa using hi, ?_, ?_, ?_, ?_, ?_⟩
        · simpa using h1
        · simpa using h2
        · simp only [List.getElem_cons_succ]
          exact h3
        · intro j hj
          cases j with
          | zero =>
            simp only [List.getElem_cons_zero, List.getElem_cons_succ]
            exact le_trans hxle (le_of_lt h3)
          | succ j' =>
            simp only [List.getElem_cons_succ]
            exact h4 j' (by simpa using hj)
        · intro j hj hji
          cases j with
          | zero =>
            simp only [List.getElem_cons_zero, List.getElem_cons_succ]
            exact lt_of_le_of_lt hxle h3
          | succ j' =>
            simp only [List.getElem_cons_succ]
            exact h5 j' (by simpa using hj) (by omega)

/-- C5: `_find_relevant_chunk` returns the first chunk in scan order whose
lowercase word-set overlap with the question is strictly greatest (strict `>`
update, so ties are broken by first occurrence); in particular for chunks
`["cat dog", "cat dog bird", "plain"]` and question `"bird dog"` it returns
`"cat dog bird"`. -/
theorem find_relevant_chunk_first_argmax :
    (∀ (q : List Char) (chunks : List (List Char)), chunks ≠ [] →
      ∃ (i : Nat) (hi : i < chunks.length),
        find_relevant_chunk q chunks = some chunks[i] ∧
        (∀ (j : Nat) (hj : j < chunks.length),
          overlapScore q chunks[j] ≤ overlapScore q chunks[i]) ∧
        (∀ (j : Nat) (hj : j < chunks.length), j < i →
          overlapScore q chunks[j] < overlapScore q chunks[i])) ∧
    find_relevant_chunk "bird dog".data
      ["cat dog".data, "cat dog bird".data, "plain".data] =
      some "cat dog bird".data := by
  constructor
  · intro q chunks hne
    cases chunks with
    | nil => exact absurd rfl hne
    | cons c0 rest =>
      have hfr : find_relevant_chunk q (c0 :: rest) =
          some (((c0 :: rest).foldl (frcStep q) (c0, 0)).1) := rfl
      rcases frc_foldl_spec q (c0 :: rest) c0 0 with
        ⟨heq, hall⟩ | ⟨i, hi, h1, h2, _h3, h4, h5⟩
      · refine ⟨0, by simp, ?_, ?_, ?_⟩
        · rw [hfr, heq]; simp
        · intro j hj
          simp only [List.getElem_cons_zero]
          exact le_trans (hall _ (List.getElem_mem hj)) (Nat.zero_le _)
        · intro j hj hj0; omega
      · exact ⟨i, hi, by rw [hfr, h1], h4, h5⟩
  · decide

/-- Witness for C5's general component at the claim's concrete example. -/
theorem find_relevant_chunk_first_argmax_witness :
    ∃ (i : Nat) (hi : i <
        (["cat dog".data, "cat dog bird".data, "plain".data] :
          List (List Char)).length),
      find_relevant_chunk "bird dog".data
        ["cat dog".data, "cat dog bird".data, "plain".data] =
        some (["cat dog".data, "cat dog bird".data, "plain".data] :
          List (List Char))[i] ∧
      (∀ (j : Nat) (hj : j <
          (["cat dog".data, "cat dog bird".data, "plain".data] :
            List (List Char)).length),
        overlapScore "bird dog".data
            (["cat dog".data, "cat dog bird".data, "plain".data] :
              List (List Char))[j] ≤
          overlapScore "bird dog".data
            (["cat dog".data, "cat dog bird".data, "plain".data] :
              List (List Char))[i]) ∧
      (∀ (j : Nat) (hj : j <
          (["cat dog".data, "cat dog bird".data, "plain".data] :
            List (List Char)).length), j < i →
        overlapScore "bird dog".data
            (["cat dog".data, "cat dog bird".data, "plain".data] :
              List (List Char))[j] <
          overlapScore "bird dog".data
            (["cat dog".data, "cat dog bird".data, "plain".data] :
              List (List Char))[i]) :=
  find_relevant_chunk_first_argmax.1 "bird dog".data
    ["cat dog".data, "cat dog bird".data, "plain".data] (by decide)

/-! ## Claim C6 -/

theorem foldl_parseAnswerStep_id (lines : List (List Char)) :
    ∀ r : AnswerResult,
      (∀ line ∈ lines, startsL "Answer:".data line = false ∧
        startsL "Reference:".data line = false) →
      lines.foldl parseAnswerStep r = r := by
  induction lines with
  | nil => intro r _; rfl
  | cons line rest ih =>
    intro r h
    have h0 := h line (List.mem_cons_self _ _)
    have hstep : parseAnswerStep r line = r := by
      unfold parseAnswerStep
      rw [if_neg (by simp [h0.1]), if_neg (by simp [h0.2])]
    rw [List.foldl_cons, hstep]
    exact ih r (fun l hl => h l (List.mem_cons_of_mem _ hl))

/-- C6: if no line of the response starts with `Answer:` and none starts
with `Reference:`, `_parse_answer` returns the full stripped input text as
the answer and the literal `"General document content"` as the reference. -/
theorem parse_answer_default_reference (t : List Char)
    (h : ∀ line ∈ pySplitlines t, startsL "Answer:".data line = false ∧
      startsL "Reference:".data line = false) :
    parse_answer t =
      { answer := pyStrip t, reference := "General document content".data,
        confidence := 4/5 } := by
  unfold parse_answer
  rw [foldl_parseAnswerStep_id (pySplitlines t) _ h]
  rfl

/-- Witness for C6 at the concrete response `"hello world"`. -/
theorem parse_answer_default_reference_witness :
    parse_answer "hello world".data =
      { answer := pyStrip "hello world".data,
        reference := "General document content".data, confidence := 4/5 } :=
  parse_answer_default_reference "hello world".data (by decide)

/-! ## Claim C7 -/

/-- C7 counterexample: a response parsing to a single well-formed pair flows
through the challenge-question generation and the `app.py` state assignment
as that singleton list; the stored value is not the fixed 3-question fallback
set, so the caller does not detect the shortfall or substitute fallbacks. -/
theorem challenge_flow_no_substitution_counterexample :
    (parse_questions (fun _ => "comprehension".data)
      "Q1: What?\nA1: This.".data).length = 1 ∧
    show_challenge_interface_store
        (generate_challenge_questions (fun _ => "comprehension".data)
          "doc".data (.ok "Q1: What?\nA1: This.".data)) =
      parse_questions (fun _ => "comprehension".data)
        "Q1: What?\nA1: This.".data ∧
    show_challenge_interface_store
        (generate_challenge_questions (fun _ => "comprehension".data)
          "doc".data (.ok "Q1: What?\nA1: This.".data)) ≠
      generate_fallback_questions "doc".data := by
  exact ⟨by decide, rfl, by decide⟩

/-- C7 (amended): when the parsed list has fewer than 3 pairs,
`generate_challenge_questions` returns that partial (possibly empty) list
unchanged — it does not top it up — and `show_challenge_interface` stores the
generator's result verbatim, without detecting the shortfall or substituting
the fallback set; the fallback set is substituted only when the collaborator
call inside the generator fails. -/
theorem challenge_flow_partial_list_unchanged (pick : Nat → List Char)
    (doc t : List Char) (h : (parse_questions pick t).length < 3) :
    generate_challenge_questions pick doc (.ok t) = parse_questions pick t ∧
    show_challenge_interface_store
        (generate_challenge_questions pick doc (.ok t)) =
      parse_questions pick t ∧
    (∀ e, show_challenge_interface_store
        (generate_challenge_questions pick doc (.error e)) =
      generate_fallback_questions doc) :=
  ⟨rfl, rfl, fun _ => rfl⟩

/-- Witness for C7 (amended) at the one-pair response. -/
theorem challenge_flow_partial_list_unchanged_witness :
    generate_challenge_questions (fun _ => "comprehension".data) "doc".data
        (.ok "Q1: What?\nA1: This.".data) =
      parse_questions (fun _ => "comprehension".data)
        "Q1: What?\nA1: This.".data ∧
    show_challenge_interface_store
        (generate_challenge_questions (fun _ => "comprehension".data)
          "doc".data (.ok "Q1: What?\nA1: This.".data)) =
      parse_questions (fun _ => "comprehension".data)
        "Q1: What?\nA1: This.".data ∧
    (∀ e, show_challenge_interface_store
        (generate_challenge_questions (fun _ => "comprehension".data)
          "doc".data (.error e)) =
      generate_fallback_questions "doc".data) :=
  challenge_flow_partial_list_unchanged (fun _ => "comprehension".data)
    "doc".data "Q1: What?\nA1: This.".data (by decide)

/-! ## Claim C8 -/

theorem hasSub_iff_countOcc_pos (w : List Char) :
    ∀ l : List Char, hasSub w l = true ↔ 0 < countOcc w l := by
  intro l
  induction l with
  | nil =>
    by_cases hw : w.isEmpty <;> simp [hasSub, countOcc, hw]
  | cons c rest ih =>
    by_cases hs : startsL w (c :: rest) <;>
      simp [hasSub, countOcc, hs, ih]

theorem countP_hasSub_eq_sum_min (t : List Char) :
    ∀ ws : List (List Char),
      ws.countP (fun w => hasSub (toLowerL w) t) =
        (ws.map (fun w => min 1 (countOcc (toLowerL w) t))).sum := by
  intro ws
  induction ws with
  | nil => rfl
  | cons w rest ih =>
    rw [List.countP_cons, List.map_cons, List.sum_cons, ih]
    by_cases h : hasSub (toLowerL w) t = true
    · have := (hasSub_iff_countOcc_pos (toLowerL w) t).mp h
      have hmin : min 1 (countOcc (toLowerL w) t) = 1 := by omega
      rw [hmin]
      simp [h]
      omega
    · have hz : countOcc (toLowerL w) t = 0 := by
        rcases Nat.eq_zero_or_pos (countOcc (toLowerL w) t) with hz | hp
        · exact hz
        · exact absurd ((hasSub_iff_countOcc_pos (toLowerL w) t).mpr hp) h
      rw [hz]
      simp [h]

/-- C8 counterexample: the sentence
`"the conclusion repeats the conclusion again"` contains the vocabulary term
`"conclusion"` twice (`specScoreOcc = 2`), yet `extract_key_sentences`
assigns it score 1: the code tests membership (`word in sentence`), it does
not count occurrences. -/
theorem sentence_score_occurrences_counterexample :
    scored_sentences "the conclusion repeats the conclusion again.".data =
      [(1, "the conclusion repeats the conclusion again".data)] ∧
    specScoreOcc "the conclusion repeats the conclusion again".data = 2 := by
  exact ⟨by decide, by decide⟩

/-- C8 (amended): in `extract_key_sentences`, every sentence's score equals
the number of vocabulary terms occurring at least once in it
(case-insensitive substring test): each term contributes at most 1 however
many times it occurs. -/
theorem sentence_score_counts_terms_once (text : List Char) :
    ∀ p ∈ scored_sentences text, p.1 = specScoreCapped p.2 := by
  intro p hp
  obtain ⟨s, _hs, rfl⟩ := List.mem_map.mp hp
  exact countP_hasSub_eq_sum_min (toLowerL s) important_words

/-- Witness for C8 (amended) at the double-`conclusion` sentence. -/
theorem sentence_score_counts_terms_once_witness :
    ((1 : Nat), "the conclusion repeats the conclusion again".data).1 =
      specScoreCapped
        ((1 : Nat), "the conclusion repeats the conclusion again".data).2 :=
  sentence_score_counts_terms_once
    "the conclusion repeats the conclusion again.".data
    (1, "the conclusion repeats the conclusion again".data) (by decide)

/-! ## Claim C9 -/

theorem sentLe_total (a b : Nat × List Char) :
    sentLe a b = true ∨ sentLe b a = true := by
  simp only [sentLe, decide_eq_true_eq]
  omega

theorem sentLe_trans (a b c : Nat × List Char) (h1 : sentLe a b = true)
    (h2 : sentLe b c = true) : sentLe a c = true := by
  simp only [sentLe, decide_eq_true_eq] at h1 h2 ⊢
  omega

theorem perm_insertLe (le : Nat × List Char → Nat × List Char → Bool)
    (a : Nat × List Char) :
    ∀ l, List.Perm (insertLe le a l) (a :: l) := by
  intro l
  induction l with
  | nil => exact List.Perm.refl _
  | cons b t ih =>
    by_cases hab : le a b = true
    · rw [insertLe, if_pos hab]
    · rw [insertLe, if_neg hab]
      exact (List.Perm.cons b ih).trans (List.Perm.swap a b t)

theorem perm_insSort (le : Nat × List Char → Nat × List Char → Bool) :
    ∀ l, List.Perm (insSort le l) l := by
  intro l
  induction l with
  | nil => exact List.Perm.refl _
  | cons a t ih =>
    exact (perm_insertLe le a (insSort le t)).trans (List.Perm.cons a ih)

theorem pairwise_insertLe (a : Nat × List Char) :
    ∀ l, List.Pairwise (fun u v => sentLe u v = true) l →
      List.Pairwise (fun u v => sentLe u v = true) (insertLe sentLe a l) := by
  intro l
  induction l with
  | nil => intro _; simp [insertLe]
  | cons b t ih =>
    intro h
    obtain ⟨hb, ht⟩ := List.pairwise_cons.mp h
    by_cases hab : sentLe a b = true
    · rw [insertLe, if_pos hab]
      refine List.pairwise_cons.mpr ⟨?_, h⟩
      intro x hx
      rcases List.mem_cons.mp hx with rfl | hx'
      · exact hab
      · exact sentLe_trans a b x hab (hb x hx')
    · rw [insertLe, if_neg hab]
      refine List.pairwise_cons.mpr ⟨?_, ih ht⟩
      intro x hx
      have hx' : x ∈ a :: t := (perm_insertLe sentLe a t).mem_iff.mp hx
      rcases List.mem_cons.mp hx' with rfl | hx''
      · rcases sentLe_total x b with h' | h'
        · exact absurd h' hab
        · exact h'
      · exact hb x hx''

theorem sorted_insSort :
    ∀ l, List.Pairwise (fun u v => sentLe u v = true) (insSort sentLe l) := by
  intro l
  induction l with
  | nil => simp [insSort]
  | cons a t ih => exact pairwise_insertLe a (insSort sentLe t) ih

theorem mem_rankedScored {l : List Char} {p : Nat × List Char}
    (hp : p ∈ rankedScored l) : p.1 = scoreOf p.2 ∧ p.2 ∈ sentences l := by
  have hp' : p ∈ scored_sentences l :=
    (perm_insSort sentLe (scored_sentences l)).mem_iff.mp hp
  obtain ⟨s, hs, rfl⟩ := List.mem_map.mp hp'
  exact ⟨rfl, hs⟩

/-- C9: `extract_key_sentences text n` returns at most `n` sentences, every
returned sentence has trimmed length at least 20 (the code in fact requires
more than 20 characters), and in the ranking a sentence containing
`"conclusion"` is placed strictly before any equal-length sentence containing
no vocabulary term (score 0). -/
theorem extract_key_sentences_bounds_and_ranking (l : List Char) (n : Nat) :
    (extract_key_sentences l n).length ≤ n ∧
    (∀ s ∈ extract_key_sentences l n, 20 ≤ (pyStrip s).length) ∧
    (∀ (i j : Nat) (hi : i < (rankedScored l).length)
        (hj : j < (rankedScored l).length),
      hasSub "conclusion".data (toLowerL ((rankedScored l)[i]).2) = true →
      scoreOf ((rankedScored l)[j]).2 = 0 →
      ((rankedScored l)[i]).2.length = ((rankedScored l)[j]).2.length →
      i < j) := by
  refine ⟨?_, ?_, ?_⟩
  · rw [extract_key_sentences, List.length_map, List.length_take]
    exact min_le_left n _
  · intro s hs
    obtain ⟨p, hp, rfl⟩ := List.mem_map.mp hs
    have hpr : p ∈ rankedScored l := List.mem_of_mem_take hp
    have hsen : p.2 ∈ sentences l := (mem_rankedScored hpr).2
    have hfil := List.mem_filter.mp hsen
    obtain ⟨u, _, hu⟩ := List.mem_map.mp hfil.1
    have hidem : pyStrip p.2 = p.2 := by rw [← hu]; exact pyStrip_idem u
    rw [hidem]
    have := of_decide_eq_true hfil.2
    omega
  · intro i j hi hj hconc hscore hlen
    have hmi : (rankedScored l)[i] ∈ rankedScored l := List.getElem_mem hi
    have hmj : (rankedScored l)[j] ∈ rankedScored l := List.getElem_mem hj
    have hieq : ((rankedScored l)[i]).1 = scoreOf ((rankedScored l)[i]).2 :=
      (mem_rankedScored hmi).1
    have hjeq : ((rankedScored l)[j]).1 = scoreOf ((rankedScored l)[j]).2 :=
      (mem_rankedScored hmj).1
    have hpos : 0 < scoreOf ((rankedScored l)[i]).2 := by
      apply List.countP_pos_iff.mpr
      refine ⟨"conclusion".data, by decide, ?_⟩
      rw [show toLowerL "conclusion".data = "conclusion".data from by decide]
      exact hconc
    have hsorted : List.Pairwise (fun u v => sentLe u v = true)
        (rankedScored l) := sorted_insSort (scored_sentences l)
    rcases Nat.lt_trichotomy i j with h | h | h
    · exact h
    · exfalso
      subst h
      rw [hscore] at hpos
      exact absurd hpos (lt_irrefl 0)
    · exfalso
      have hle := List.pairwise_iff_getElem.mp hsorted j i hj hi h
      simp only [sentLe, decide_eq_true_eq] at hle
      rw [hieq, hjeq, hscore] at hle
      omega

/-- Witness for C9 at a two-sentence text whose sentences have equal length,
one containing `"conclusion"` and one containing no vocabulary term. -/
theorem extract_key_sentences_bounds_and_ranking_witness :
    (extract_key_sentences
      "In conclusion it ends xx. the weather was sunny zz.".data 2).length ≤ 2 ∧
    (0 : Nat) < 1 :=
  ⟨(extract_key_sentences_bounds_and_ranking
      "In conclusion it ends xx. the weather was sunny zz.".data 2).1,
   (extract_key_sentences_bounds_and_ranking
      "In conclusion it ends xx. the weather was sunny zz.".data 2).2.2 0 1
      (by decide) (by decide) (by decide) (by decide) (by decide)⟩

/-! ## Claim C10 -/

/-- C10: if the collaborator call inside `answer_question` fails — or any
step before the successful parse does, which in the model is the
`IndexError` of `chunks[0]` when the document has no words — then
`conversation_history` after the call equals `conversation_history` before
it (the exchange is appended only on the success path), and the returned
error record has reference `"System error"`. -/
theorem answer_question_error_preserves_history (hist : List Exchange)
    (q doc : List Char) (o : Except (List Char) (List Char))
    (h : (∃ e, o = Except.error e) ∨ pyWords doc = []) :
    (answer_question hist q doc o).2 = hist ∧
    (answer_question hist q doc o).1.reference = "System error".data := by
  unfold answer_question
  dsimp only
  rcases h with ⟨e, rfl⟩ | hw
  · cases hfr : find_relevant_chunk q (chunk_text doc 1500 150) with
    | none => exact ⟨rfl, rfl⟩
    | some c => simp [hfr]
  · have hchunks : chunk_text doc 1500 150 = [] := by
      unfold chunk_text chunkWords
      rw [hw]
      rfl
    rw [hchunks]
    exact ⟨rfl, rfl⟩

/-- Witness for C10: a failing collaborator call on a non-trivial document
leaves the history unchanged and reports a system error. -/
theorem answer_question_error_preserves_history_witness :
    (answer_question [⟨"q0".data, "a0".data, "r0".data⟩] "why".data
        "some words here".data (Except.error "boom".data)).2 =
      [(⟨"q0".data, "a0".data, "r0".data⟩ : Exchange)] ∧
    (answer_question [⟨"q0".data, "a0".data, "r0".data⟩] "why".data
        "some words here".data
        (Except.error "boom".data)).1.reference = "System error".data :=
  answer_question_error_preserves_history
    [⟨"q0".data, "a0".data, "r0".data⟩] "why".data "some words here".data
    (Except.error "boom".data) (Or.inl ⟨"boom".data, rfl⟩)

end SmartDoc
